import Mathlib

/-!
Verification of the MAX7219 dot-matrix driver.

Shallow embedding of `src/lib.rs` and `src/rotate.rs` of the
`max7219-dot-matrix-async` crate.  The driver's side effects (chip-select pin
transitions and SPI byte transfers) are recorded as an explicit event trace;
fallible external calls (SPI transfer, pin set) are driven by an environment of
failure oracles, and Rust's `?` early-return is modelled by `Except`-style
sequencing that keeps the state accumulated up to the failure point.
Machine integers: `u8`/`usize` values are `Nat` with `% 256` where u8 overflow
matters; `i32`/`i8` arithmetic is `Int` with Rust's truncating `/` and `%`
rendered as `Int.tdiv` / `Int.tmod`.
-/

namespace Max7219

/-- The error enum `Error<SpiError, PinError>` from `src/lib.rs` (the wrapped
payloads of `Spi`/`Pin` are irrelevant to the claims and dropped). -/
inductive Err where
  | Spi
  | Pin
  | InvalidLineIndex
  | InvalidPayloadLength
deriving DecidableEq, Repr

/-- Observable events of a driver call: chip-select low/high transitions and
single-byte SPI transfers. -/
inductive Ev where
  | lo
  | hi
  | byte (b : Nat)
deriving DecidableEq, Repr

/-- The `Command` enum from `src/lib.rs`. -/
inductive Command where
  | Noop | Digit0 | Digit1 | Digit2 | Digit3 | Digit4 | Digit5 | Digit6
  | Digit7 | DecodeMode | Intensity | ScanLimit | OnOff | DisplayTest
deriving DecidableEq, Repr

/-- The numeric discriminants of `Command` (`Command as u8`). -/
def Command.code : Command → Nat
  | .Noop => 0x00
  | .Digit0 => 0x01
  | .Digit1 => 0x02
  | .Digit2 => 0x03
  | .Digit3 => 0x04
  | .Digit4 => 0x05
  | .Digit5 => 0x06
  | .Digit6 => 0x07
  | .Digit7 => 0x08
  | .DecodeMode => 0x09
  | .Intensity => 0x0A
  | .ScanLimit => 0x0B
  | .OnOff => 0x0C
  | .DisplayTest => 0x0F

/-- Execution state: how many SPI transfers and pin operations have been
attempted so far, and the trace of events that actually happened. -/
structure St where
  spiCount : Nat
  pinCount : Nat
  trace : List Ev
deriving DecidableEq, Repr

/-- Failure oracles for the external collaborators: `spiFail n` says the n-th
SPI transfer fails, `pinFail n` says the n-th pin operation fails. -/
structure Env where
  spiFail : Nat → Bool
  pinFail : Nat → Bool

/-- Result of a driver call: the final state, or an error together with the
state at the moment of the early return. -/
abbrev Res := Except (Err × St) St

/-- Sequencing with `?`-style early return. -/
def andThen (r : Res) (f : St → Res) : Res :=
  match r with
  | .ok s => f s
  | .error e => .error e

/-- `shift_out` (lib.rs:272-283): one SPI byte transfer, wrapping a failure in
`Error::Spi`. -/
def shift_out (env : Env) (value : Nat) (s : St) : Res :=
  if env.spiFail s.spiCount then
    .error (.Spi, { s with spiCount := s.spiCount + 1 })
  else
    .ok { s with spiCount := s.spiCount + 1, trace := s.trace ++ [.byte value] }

/-- `self.cs.set_low().map_err(Error::Pin)?`. -/
def set_low (env : Env) (s : St) : Res :=
  if env.pinFail s.pinCount then
    .error (.Pin, { s with pinCount := s.pinCount + 1 })
  else
    .ok { s with pinCount := s.pinCount + 1, trace := s.trace ++ [.lo] }

/-- `self.cs.set_high().map_err(Error::Pin)?`. -/
def set_high (env : Env) (s : St) : Res :=
  if env.pinFail s.pinCount then
    .error (.Pin, { s with pinCount := s.pinCount + 1 })
  else
    .ok { s with pinCount := s.pinCount + 1, trace := s.trace ++ [.hi] }

/-- A `for _ in 0..n { shift_out register; shift_out data }` loop. -/
def pairsLoop (env : Env) (register data : Nat) : Nat → St → Res
  | 0, s => .ok s
  | n + 1, s =>
    andThen (andThen (shift_out env register s) (shift_out env data))
      (pairsLoop env register data n)

/-- `write_raw_all` (lib.rs:97-113). -/
def write_raw_all (env : Env) (num_devices : Nat) (register data : Nat)
    (s : St) : Res :=
  andThen (set_low env s) (fun s1 =>
  andThen (pairsLoop env register data num_devices s1) (fun s2 =>
  set_high env s2))

/-- `write_command_all` (lib.rs:66-77). -/
def write_command_all (env : Env) (num_devices : Nat) (command : Command)
    (data : Nat) (s : St) : Res :=
  write_raw_all env num_devices command.code data s

/-- One frame of `clear_all`: `set_low; for _ in 0..num_devices { shift_out
register; shift_out 0 }; set_high`. -/
def clear_frame (env : Env) (num_devices register : Nat) (s : St) : Res :=
  andThen (set_low env s) (fun s1 =>
  andThen (pairsLoop env register 0 num_devices s1) (fun s2 =>
  set_high env s2))

/-- The `for register in 1..9` loop of `clear_all`, over an explicit register
list. -/
def clearLoop (env : Env) (num_devices : Nat) : List Nat → St → Res
  | [], s => .ok s
  | r :: rest, s => andThen (clear_frame env num_devices r s)
      (clearLoop env num_devices rest)

/-- `clear_all` (lib.rs:80-94): `for register in 1..9 { ... }`. -/
def clear_all (env : Env) (num_devices : Nat) (s : St) : Res :=
  clearLoop env num_devices (List.range' 1 8) s

/-- The `for data in payload` loop of `write_line_raw`. -/
def payloadLoop (env : Env) (register : Nat) : List Nat → St → Res
  | [], s => .ok s
  | d :: rest, s =>
    andThen (andThen (shift_out env register s) (shift_out env d))
      (payloadLoop env register rest)

/-- `write_line_raw` (lib.rs:117-143). -/
def write_line_raw (env : Env) (num_devices : Nat) (line_index : Nat)
    (payload : List Nat) (s : St) : Res :=
  if 8 ≤ line_index then .error (.InvalidLineIndex, s)
  else if payload.length ≠ num_devices then .error (.InvalidPayloadLength, s)
  else
    andThen (set_low env s) (fun s1 =>
    andThen (payloadLoop env (line_index + 1) payload s1) (fun s2 =>
    set_high env s2))

/-- `write_device_raw` (lib.rs:148-178).  The Rust loop
`for _ in device_index..self.num_devices - 1` runs
`(num_devices - 1) - device_index` times (usize ranges are empty when the
lower bound exceeds the upper bound; the claims only concern
`num_devices ≥ 1`, where the `usize` subtraction cannot underflow). -/
def write_device_raw (env : Env) (num_devices device_index register data : Nat)
    (s : St) : Res :=
  andThen (set_low env s) (fun s1 =>
  andThen (pairsLoop env 0 0 (num_devices - 1 - device_index) s1) (fun s2 =>
  andThen (shift_out env register s2) (fun s3 =>
  andThen (shift_out env data s3) (fun s4 =>
  andThen (pairsLoop env 0 0 device_index s4) (fun s5 =>
  set_high env s5)))))

/-- `is_in_range` (lib.rs:286-288). -/
def is_in_range (len i : Int) : Bool :=
  decide (0 ≤ i) && decide (i < len)

/-- Modelled from the spec: the glyph table `CP437FONT` lives in
`src/font.rs`, a file of this repository that is not included in `src/`.  The
spec describes it only at its interface: "a fixed mapping from byte code
(0-255) to an 8-byte row bitmap; index 0 is the blank sentinel glyph".  We
model it as an arbitrary mapping (character code → row index → row byte)
passed as a parameter to `get_byte_at` and `write_str_at_pos`; claims that need
blankness of glyph 0 or byte-sized rows take those as explicit hypotheses. -/
def FontTable : Type := Nat → Nat → Nat

/-- `get_byte_at` (lib.rs:229-268).  `u8` shifts: `>>` needs no reduction,
`<<` wraps and is reduced `% 256`; `^` is `Nat.xor` on byte values. -/
def get_byte_at (font : FontTable) (string : List Nat)
    (string_index line_index : Nat) (shift_by_num_bits : Int) : Nat :=
  let left_index : Int := (string_index : Int) - 1
  let mid_index : Nat := string_index
  let right_index : Nat := string_index + 1
  let len : Int := (string.length : Int)
  let left := if is_in_range len left_index then
      font (string.getD left_index.toNat 0) else font 0
  let middle := if is_in_range len (mid_index : Int) then
      font (string.getD mid_index 0) else font 0
  let right := if is_in_range len (right_index : Int) then
      font (string.getD right_index 0) else font 0
  if shift_by_num_bits = 0 then
    middle line_index
  else if shift_by_num_bits < 0 then
    let k := (-shift_by_num_bits).toNat
    (middle line_index >>> k) ^^^ ((right line_index <<< (8 - k)) % 256)
  else
    let k := shift_by_num_bits.toNat
    ((middle line_index <<< k) % 256) ^^^ (left line_index >>> (8 - k))

/-- `let shift_by_bits = (x_pos % 8) as i8` (lib.rs:193).  Rust `%` on `i32`
is truncating remainder; the cast to `i8` is lossless since the value lies in
`(-8, 8)`. -/
def shift_by_bits (x_pos : Int) : Int := Int.tmod x_pos 8

/-- `let start_string_index = x_pos / 8` (lib.rs:194).  Rust `/` on `i32` is
truncating division. -/
def start_string_index (x_pos : Int) : Int := Int.tdiv x_pos 8

/-- The `for chip_index in 0..self.num_devices` loop body of
`write_str_at_pos` (lib.rs:200-217), over an explicit chip-index list. -/
def chipLoop (font : FontTable) (env : Env) (num_devices : Nat)
    (string : List Nat) (start shift : Int) (line_index : Nat) :
    List Nat → St → Res
  | [], s => .ok s
  | chip_index :: rest, s =>
    let string_index : Int :=
      (num_devices : Int) - (chip_index : Int) - 1 - start
    let register := line_index + 1
    andThen (shift_out env register s) (fun s1 =>
    andThen
      (if 0 ≤ string_index ∧ string_index ≤ (string.length : Int) then
        shift_out env
          (get_byte_at font string string_index.toNat line_index shift) s1
      else
        shift_out env 0 s1)
      (chipLoop font env num_devices string start shift line_index rest))

/-- The `for line_index in 0..8` loop of `write_str_at_pos` (lib.rs:196-221),
over an explicit line-index list. -/
def lineLoop (font : FontTable) (env : Env) (num_devices : Nat)
    (string : List Nat) (start shift : Int) : List Nat → St → Res
  | [], s => .ok s
  | line_index :: rest, s =>
    andThen (set_low env s) (fun s1 =>
    andThen (chipLoop font env num_devices string start shift line_index
        (List.range num_devices) s1) (fun s2 =>
    andThen (set_high env s2) (fun s3 =>
    lineLoop font env num_devices string start shift rest s3)))

/-- `write_str_at_pos` (lib.rs:183-224); the string is given as its byte
slice `s.as_bytes()`. -/
def write_str_at_pos (font : FontTable) (env : Env) (num_devices : Nat)
    (string : List Nat) (x_pos : Int) (s : St) : Res :=
  lineLoop font env num_devices string (start_string_index x_pos)
    (shift_by_bits x_pos) (List.range 8) s

/-! ### rotate.rs -/

/-- `is_bit_set` (rotate.rs:1-7). -/
def is_bit_set (byte n : Nat) : Bool :=
  if n < 8 then (byte &&& (1 <<< n)) ≠ 0 else false

/-- The inner `for j in 0..8` loop of `rotate_90_clockwise`, over an explicit
column list: `rotated[7 - j] = rotated[7 - j] | (1 << i)` when bit `j` of
`line` is set. -/
def rotStep (i line : Nat) (cols : List Nat) (rotated : List Nat) : List Nat :=
  cols.foldl (fun rot j =>
    if is_bit_set line j then
      rot.set (7 - j) (rot.getD (7 - j) 0 ||| (1 <<< i))
    else rot) rotated

/-- `rotate_90_clockwise` (rotate.rs:11-24): fold over
`buffer.iter().enumerate()`. -/
def rotate_90_clockwise (buffer : List Nat) : List Nat :=
  (buffer.enum).foldl (fun rot p => rotStep p.1 p.2 (List.range 8) rot)
    (List.replicate 8 0)

/-! ### Observation helpers -/

/-- The error (if any) a call returned. -/
def outcomeErr : Res → Option Err
  | .ok _ => none
  | .error (e, _) => some e

/-- The event trace at the moment the call returned (also on error). -/
def outcomeTrace : Res → List Ev
  | .ok s => s.trace
  | .error (_, s) => s.trace

/-- The fresh state at the start of a call. -/
def st0 : St := ⟨0, 0, []⟩

/-- Fault-free environment: no SPI transfer and no pin operation ever fails. -/
def okEnv : Env := ⟨fun _ => false, fun _ => false⟩

/-- Environment whose first SPI transfer fails (all pin operations succeed). -/
def spiFailFirst : Env := ⟨fun n => n == 0, fun _ => false⟩

/-- The trace produced by `pairsLoop` in a fault-free run. -/
def pairList (register data : Nat) : Nat → List Ev
  | 0 => []
  | n + 1 => Ev.byte register :: Ev.byte data :: pairList register data n

/-- Number of SPI byte events in a trace. -/
def countBytes (t : List Ev) : Nat :=
  t.countP fun e => match e with | .byte _ => true | _ => false

/-- Effect of one trace event on the select line (true = asserted/low). -/
def selStep (b : Bool) (e : Ev) : Bool :=
  match e with | .lo => true | .hi => false | .byte _ => b

/-- Whether the select signal is left asserted (low) after replaying a trace
from the deasserted state. -/
def selectLowAfter (t : List Ev) : Bool :=
  t.foldl selStep false

/-! ### Derived definitions used by the specifications -/

/-- The byte `write_str_at_pos` shifts out for one chip of one line: the
`get_byte_at` value when the code's range check passes, else 0. -/
def codeByte (font : FontTable) (nd : Nat) (string : List Nat)
    (start shift : Int) (line_index chip_index : Nat) : Nat :=
  let string_index : Int := (nd : Int) - (chip_index : Int) - 1 - start
  if 0 ≤ string_index ∧ string_index ≤ (string.length : Int) then
    get_byte_at font string string_index.toNat line_index shift
  else 0

/-- An operation can fail only with a transport (`Spi`) or pin (`Pin`) error;
validation errors are impossible for it. -/
def transportOnly (r : Res) : Prop :=
  ∀ e st, r = .error (e, st) → e = Err.Spi ∨ e = Err.Pin

/-- The glyph row the spec assigns to integer character position `i`: the
glyph of `string[i]` when `i` lies in `[0, length)`, else the blank sentinel
glyph (table index 0). -/
def spec_glyph_row (font : FontTable) (string : List Nat) (i : Int)
    (row : Nat) : Nat :=
  if 0 ≤ i ∧ i < (string.length : Int) then font (string.getD i.toNat 0) row
  else font 0 row

/-- The composed byte of §4.2 step 4, written with OR as in the spec:
`middle[r]` when `shift = 0`; `(middle[r] >> k) OR (right[r] << (8-k))` when
`shift = -k < 0`; `(middle[r] << k) OR (left[r] >> (8-k))` when
`shift = k > 0`. -/
def spec_composed_byte (font : FontTable) (string : List Nat)
    (string_index line_index : Nat) (shift : Int) : Nat :=
  let middle := spec_glyph_row font string (string_index : Int) line_index
  let left := spec_glyph_row font string ((string_index : Int) - 1) line_index
  let right := spec_glyph_row font string ((string_index : Int) + 1) line_index
  if shift = 0 then middle
  else if shift < 0 then
    let k := (-shift).toNat
    (middle >>> k) ||| ((right <<< (8 - k)) % 256)
  else
    let k := shift.toNat
    ((middle <<< k) % 256) ||| (left >>> (8 - k))

/-- A concrete glyph table used to instantiate the universally quantified
theorems: blank at code 0, byte-sized rows everywhere. -/
def testFont : FontTable := fun c r => if c = 0 then 0 else (c + r) % 256

end Max7219

namespace Max7219

/-! ### Fault-free execution lemmas -/

theorem shift_out_okEnv (v : Nat) (s : St) :
    shift_out okEnv v s =
      .ok ⟨s.spiCount + 1, s.pinCount, s.trace ++ [.byte v]⟩ := rfl

theorem set_low_okEnv (s : St) :
    set_low okEnv s =
      .ok ⟨s.spiCount, s.pinCount + 1, s.trace ++ [.lo]⟩ := rfl

theorem set_high_okEnv (s : St) :
    set_high okEnv s =
      .ok ⟨s.spiCount, s.pinCount + 1, s.trace ++ [.hi]⟩ := rfl

theorem andThen_ok (s : St) (f : St → Res) : andThen (.ok s) f = f s := rfl

theorem pairsLoop_okEnv (r d n : Nat) : ∀ s : St,
    pairsLoop okEnv r d n s =
      .ok ⟨s.spiCount + 2 * n, s.pinCount, s.trace ++ pairList r d n⟩ := by
  induction n with
  | zero => intro s; simp [pairsLoop, pairList]
  | succ n ih =>
    intro s
    rw [pairsLoop, shift_out_okEnv, andThen_ok, shift_out_okEnv, andThen_ok, ih]
    simp only [pairList, Except.ok.injEq, St.mk.injEq]
    refine ⟨by omega, trivial, by simp⟩

theorem payloadLoop_okEnv (r : Nat) (payload : List Nat) : ∀ s : St,
    payloadLoop okEnv r payload s =
      .ok ⟨s.spiCount + 2 * payload.length, s.pinCount,
        s.trace ++ payload.flatMap (fun d => [Ev.byte r, Ev.byte d])⟩ := by
  induction payload with
  | nil => intro s; simp [payloadLoop]
  | cons d rest ih =>
    intro s
    rw [payloadLoop, shift_out_okEnv, andThen_ok, shift_out_okEnv, andThen_ok,
      ih]
    simp only [List.flatMap_cons, List.length_cons, Except.ok.injEq, St.mk.injEq]
    refine ⟨by omega, trivial, by simp⟩

theorem write_raw_all_okEnv (nd r d : Nat) (s : St) :
    write_raw_all okEnv nd r d s =
      .ok ⟨s.spiCount + 2 * nd, s.pinCount + 2,
        s.trace ++ ([Ev.lo] ++ pairList r d nd ++ [Ev.hi])⟩ := by
  rw [write_raw_all, set_low_okEnv, andThen_ok, pairsLoop_okEnv, andThen_ok,
    set_high_okEnv]
  simp [St.mk.injEq]

theorem clear_frame_okEnv (nd r : Nat) (s : St) :
    clear_frame okEnv nd r s =
      .ok ⟨s.spiCount + 2 * nd, s.pinCount + 2,
        s.trace ++ ([Ev.lo] ++ pairList r 0 nd ++ [Ev.hi])⟩ := by
  rw [clear_frame, set_low_okEnv, andThen_ok, pairsLoop_okEnv, andThen_ok,
    set_high_okEnv]
  simp [St.mk.injEq]

theorem clearLoop_okEnv (nd : Nat) (regs : List Nat) : ∀ s : St,
    clearLoop okEnv nd regs s =
      .ok ⟨s.spiCount + regs.length * (2 * nd),
        s.pinCount + 2 * regs.length,
        s.trace ++ regs.flatMap (fun r => [Ev.lo] ++ pairList r 0 nd ++ [Ev.hi])⟩ := by
  induction regs with
  | nil => intro s; simp [clearLoop]
  | cons r rest ih =>
    intro s
    rw [clearLoop, clear_frame_okEnv, andThen_ok, ih]
    simp only [List.flatMap_cons, List.length_cons, Except.ok.injEq, St.mk.injEq]
    refine ⟨by ring, by omega, by simp⟩

theorem write_device_raw_okEnv (nd di r d : Nat) (s : St) :
    write_device_raw okEnv nd di r d s =
      .ok ⟨s.spiCount + 2 * (nd - 1 - di) + 2 + 2 * di, s.pinCount + 2,
        s.trace ++ ([Ev.lo] ++ pairList 0 0 (nd - 1 - di)
          ++ [Ev.byte r, Ev.byte d] ++ pairList 0 0 di ++ [Ev.hi])⟩ := by
  rw [write_device_raw, set_low_okEnv, andThen_ok, pairsLoop_okEnv, andThen_ok,
    shift_out_okEnv, andThen_ok, shift_out_okEnv, andThen_ok, pairsLoop_okEnv,
    andThen_ok, set_high_okEnv]
  simp [St.mk.injEq]

end Max7219

namespace Max7219

theorem chipLoop_okEnv (font : FontTable) (nd : Nat) (string : List Nat)
    (start shift : Int) (li : Nat) (chips : List Nat) : ∀ s : St,
    chipLoop font okEnv nd string start shift li chips s =
      .ok ⟨s.spiCount + 2 * chips.length, s.pinCount,
        s.trace ++ chips.flatMap (fun c =>
          [Ev.byte (li + 1), Ev.byte (codeByte font nd string start shift li c)])⟩ := by
  induction chips with
  | nil => intro s; simp [chipLoop]
  | cons c rest ih =>
    intro s
    rw [chipLoop]
    simp only [shift_out_okEnv, andThen_ok]
    by_cases h : 0 ≤ (nd : Int) - (c : Int) - 1 - start ∧
        (nd : Int) - (c : Int) - 1 - start ≤ (string.length : Int)
    · rw [if_pos h, andThen_ok, ih]
      simp only [List.flatMap_cons, List.length_cons, Except.ok.injEq,
        St.mk.injEq, codeByte]
      refine ⟨by omega, trivial, by rw [if_pos h]; simp⟩
    · rw [if_neg h, andThen_ok, ih]
      simp only [List.flatMap_cons, List.length_cons, Except.ok.injEq,
        St.mk.injEq, codeByte]
      refine ⟨by omega, trivial, by rw [if_neg h]; simp⟩

theorem lineLoop_okEnv (font : FontTable) (nd : Nat) (string : List Nat)
    (start shift : Int) (lines : List Nat) : ∀ s : St,
    lineLoop font okEnv nd string start shift lines s =
      .ok ⟨s.spiCount + lines.length * (2 * nd),
        s.pinCount + 2 * lines.length,
        s.trace ++ lines.flatMap (fun li =>
          [Ev.lo] ++ (List.range nd).flatMap (fun c =>
            [Ev.byte (li + 1),
             Ev.byte (codeByte font nd string start shift li c)]) ++ [Ev.hi])⟩ := by
  induction lines with
  | nil => intro s; simp [lineLoop]
  | cons li rest ih =>
    intro s
    rw [lineLoop, set_low_okEnv, andThen_ok, chipLoop_okEnv, andThen_ok,
      set_high_okEnv, andThen_ok, ih]
    simp only [List.flatMap_cons, List.length_cons, List.length_range,
      Except.ok.injEq, St.mk.injEq]
    refine ⟨by ring, by omega, by simp⟩

end Max7219

namespace Max7219

/-! ### Select-line bookkeeping and remaining operation traces -/

theorem foldl_selStep_snoc_hi (b : Bool) (A : List Ev) :
    (A ++ [Ev.hi]).foldl selStep b = false := by
  rw [List.foldl_append]; rfl

theorem selectLowAfter_snoc_hi (A : List Ev) :
    selectLowAfter (A ++ [Ev.hi]) = false :=
  foldl_selStep_snoc_hi false A

theorem foldl_selStep_flatMap {α : Type} (f : α → List Ev)
    (L : List α) (hf : ∀ a ∈ L, ∃ A, f a = A ++ [Ev.hi]) :
    ∀ b : Bool, L ≠ [] → (L.flatMap f).foldl selStep b = false := by
  induction L with
  | nil => intro b h; exact absurd rfl h
  | cons a rest ih =>
    intro b _
    rw [List.flatMap_cons, List.foldl_append]
    rcases eq_or_ne rest [] with hrest | hrest
    · subst hrest
      obtain ⟨A, hA⟩ := hf a (by simp)
      simp only [List.flatMap_nil, List.foldl_nil]
      rw [hA, foldl_selStep_snoc_hi]
    · exact ih (fun x hx => hf x (by simp [hx])) _ hrest

theorem write_line_raw_okEnv (nd li : Nat) (payload : List Nat) (s : St)
    (h1 : li < 8) (h2 : payload.length = nd) :
    write_line_raw okEnv nd li payload s =
      .ok ⟨s.spiCount + 2 * payload.length, s.pinCount + 2,
        s.trace ++ ([Ev.lo] ++ payload.flatMap (fun d =>
          [Ev.byte (li + 1), Ev.byte d]) ++ [Ev.hi])⟩ := by
  rw [write_line_raw, if_neg (by omega), if_neg (by omega), set_low_okEnv,
    andThen_ok, payloadLoop_okEnv, andThen_ok, set_high_okEnv]
  simp [St.mk.injEq]

theorem write_str_at_pos_okEnv (font : FontTable) (nd : Nat)
    (string : List Nat) (x_pos : Int) (s : St) :
    write_str_at_pos font okEnv nd string x_pos s =
      .ok ⟨s.spiCount + 8 * (2 * nd), s.pinCount + 16,
        s.trace ++ (List.range 8).flatMap (fun li =>
          [Ev.lo] ++ (List.range nd).flatMap (fun c =>
            [Ev.byte (li + 1),
             Ev.byte (codeByte font nd string (start_string_index x_pos)
               (shift_by_bits x_pos) li c)]) ++ [Ev.hi])⟩ := by
  rw [write_str_at_pos, lineLoop_okEnv]
  simp [St.mk.injEq]

theorem transportOnly_shift_out (env : Env) (v : Nat) (s : St) :
    transportOnly (shift_out env v s) := by
  intro e st h
  unfold shift_out at h
  split at h
  · simp only [Except.error.injEq, Prod.mk.injEq] at h
    exact .inl h.1.symm
  · simp at h

theorem transportOnly_set_low (env : Env) (s : St) :
    transportOnly (set_low env s) := by
  intro e st h
  unfold set_low at h
  split at h
  · simp only [Except.error.injEq, Prod.mk.injEq] at h
    exact .inr h.1.symm
  · simp at h

theorem transportOnly_set_high (env : Env) (s : St) :
    transportOnly (set_high env s) := by
  intro e st h
  unfold set_high at h
  split at h
  · simp only [Except.error.injEq, Prod.mk.injEq] at h
    exact .inr h.1.symm
  · simp at h

theorem transportOnly_andThen {r : Res} {f : St → Res}
    (hr : transportOnly r) (hf : ∀ s, transportOnly (f s)) :
    transportOnly (andThen r f) := by
  intro e st h
  match hm : r, h with
  | .ok s, h => exact hf s e st h
  | .error p, h => exact hr e st h

theorem transportOnly_pairsLoop (env : Env) (r d : Nat) (n : Nat) :
    ∀ s : St, transportOnly (pairsLoop env r d n s) := by
  induction n with
  | zero => intro s e st h; simp [pairsLoop] at h
  | succ n ih =>
    intro s
    exact transportOnly_andThen
      (transportOnly_andThen (transportOnly_shift_out env r s)
        (fun s1 => transportOnly_shift_out env d s1))
      (fun s1 => ih s1)

theorem transportOnly_write_device_raw (env : Env)
    (nd di r d : Nat) (s : St) :
    transportOnly (write_device_raw env nd di r d s) := by
  unfold write_device_raw
  refine transportOnly_andThen (transportOnly_set_low env s) (fun s1 => ?_)
  refine transportOnly_andThen (transportOnly_pairsLoop env 0 0 _ s1)
    (fun s2 => ?_)
  refine transportOnly_andThen (transportOnly_shift_out env r s2) (fun s3 => ?_)
  refine transportOnly_andThen (transportOnly_shift_out env d s3) (fun s4 => ?_)
  refine transportOnly_andThen (transportOnly_pairsLoop env 0 0 _ s4)
    (fun s5 => transportOnly_set_high env s5)

end Max7219

namespace Max7219

/-! ### Bit-level lemmas for the compositing algorithm -/

theorem xor_eq_or_of_and_eq_zero {a b : Nat} (h : a &&& b = 0) :
    a ^^^ b = a ||| b := by
  apply Nat.eq_of_testBit_eq
  intro i
  have hi : (a &&& b).testBit i = false := by rw [h]; exact Nat.zero_testBit i
  rw [Nat.testBit_and] at hi
  rw [Nat.testBit_xor, Nat.testBit_or]
  cases ha : a.testBit i <;> cases hb : b.testBit i <;> simp_all

theorem lt_two_pow_of_lt_256 {m n : Nat} (hm : m < 256) (hn : 8 ≤ n) :
    m < 2 ^ n :=
  lt_of_lt_of_le hm (by
    calc (256 : Nat) = 2 ^ 8 := by norm_num
      _ ≤ 2 ^ n := Nat.pow_le_pow_right (by norm_num) hn)

theorem shr_and_shl_mod_eq_zero {m r k : Nat} (hm : m < 256) (hk1 : 0 < k)
    (hk2 : k < 8) : (m >>> k) &&& ((r <<< (8 - k)) % 256) = 0 := by
  apply Nat.eq_of_testBit_eq
  intro i
  rw [Nat.testBit_and, Nat.zero_testBit, Nat.testBit_shiftRight]
  by_cases h : k + i < 8
  · have hr : ((r <<< (8 - k)) % 256).testBit i = false := by
      rw [show (256 : Nat) = 2 ^ 8 by norm_num, Nat.testBit_mod_two_pow,
        Nat.testBit_shiftLeft]
      have : ¬ (8 - k ≤ i) := by omega
      simp [this]
    simp [hr]
  · have hm' : m.testBit (k + i) = false :=
      Nat.testBit_lt_two_pow (lt_two_pow_of_lt_256 hm (by omega))
    simp [hm']

theorem shl_mod_and_shr_eq_zero {m l k : Nat} (hl : l < 256) (hk1 : 0 < k)
    (hk2 : k < 8) : ((m <<< k) % 256) &&& (l >>> (8 - k)) = 0 := by
  apply Nat.eq_of_testBit_eq
  intro i
  rw [Nat.testBit_and, Nat.zero_testBit, Nat.testBit_shiftRight]
  by_cases h : i < k
  · have hmbit : ((m <<< k) % 256).testBit i = false := by
      rw [show (256 : Nat) = 2 ^ 8 by norm_num, Nat.testBit_mod_two_pow,
        Nat.testBit_shiftLeft]
      have : ¬ (k ≤ i) := by omega
      simp [this]
    simp [hmbit]
  · have hl' : l.testBit (8 - k + i) = false :=
      Nat.testBit_lt_two_pow (lt_two_pow_of_lt_256 hl (by omega))
    simp [hl']

/-! ### Spec-side compositing definitions (§4.2 of the spec) -/

theorem spec_glyph_row_lt {font : FontTable}
    (hfont : ∀ c r, font c r < 256) (string : List Nat) (i : Int) (row : Nat) :
    spec_glyph_row font string i row < 256 := by
  rw [spec_glyph_row]; split <;> exact hfont _ _

theorem row_if_eq (font : FontTable) (string : List Nat) (li : Nat) (i : Int) :
    (if is_in_range (string.length : Int) i then font (string.getD i.toNat 0)
     else font 0) li = spec_glyph_row font string i li := by
  rw [spec_glyph_row]
  rcases Decidable.em (0 ≤ i ∧ i < (string.length : Int)) with h | h
  · rw [if_pos h, if_pos (by simp [is_in_range, h.1, h.2])]
  · have hg : ¬ (is_in_range (string.length : Int) i = true) := by
      simp only [is_in_range, Bool.and_eq_true, decide_eq_true_eq]
      omega
    rw [if_neg h, if_neg hg]

end Max7219

namespace Max7219

theorem mid_row_eq (font : FontTable) (string : List Nat) (li si : Nat) :
    (if is_in_range (string.length : Int) (si : Int) then
      font (string.getD si 0) else font 0) li
      = spec_glyph_row font string (si : Int) li := by
  have h := row_if_eq font string li (si : Int)
  rwa [Int.toNat_natCast] at h

theorem right_row_eq (font : FontTable) (string : List Nat) (li si : Nat) :
    (if is_in_range (string.length : Int) ((si + 1 : Nat) : Int) then
      font (string.getD (si + 1) 0) else font 0) li
      = spec_glyph_row font string ((si : Int) + 1) li := by
  rw [spec_glyph_row]
  rcases Decidable.em (0 ≤ (si : Int) + 1 ∧ (si : Int) + 1 < (string.length : Int))
    with h | h
  · have e : ((si : Int) + 1).toNat = si + 1 := by omega
    have hg : is_in_range (string.length : Int) ((si + 1 : Nat) : Int) = true := by
      simp only [is_in_range, Bool.and_eq_true, decide_eq_true_eq]
      omega
    rw [if_pos h, e, if_pos hg]
  · have hg : ¬ (is_in_range (string.length : Int) ((si + 1 : Nat) : Int) = true) := by
      simp only [is_in_range, Bool.and_eq_true, decide_eq_true_eq]
      omega
    rw [if_neg h, if_neg hg]

end Max7219

namespace Max7219

/-- Claim C5: `get_byte_at` computes exactly the spec's composed byte: the three
glyph rows are fetched with the blank sentinel substituted outside `[0, len)`
(in particular `string_index = len` gives the blank sentinel for `middle`),
and the code's XOR equals the spec's OR because the operand bit ranges are
disjoint. -/
theorem get_byte_at_eq_spec_composed_byte (font : FontTable)
    (hfont : ∀ c r, font c r < 256) (string : List Nat)
    (string_index line_index : Nat) (shift : Int)
    (hsi : string_index ≤ string.length) (hli : line_index < 8)
    (h1 : -7 ≤ shift) (h2 : shift ≤ 7) :
    get_byte_at font string string_index line_index shift =
      spec_composed_byte font string string_index line_index shift := by
  simp only [get_byte_at, spec_composed_byte]
  rw [mid_row_eq, right_row_eq, row_if_eq]
  by_cases h0 : shift = 0
  · simp [h0]
  · rw [if_neg h0, if_neg h0]
    by_cases hneg : shift < 0
    · rw [if_pos hneg, if_pos hneg]
      exact xor_eq_or_of_and_eq_zero (shr_and_shl_mod_eq_zero
        (spec_glyph_row_lt hfont string _ _) (by omega) (by omega))
    · rw [if_neg hneg, if_neg hneg]
      exact xor_eq_or_of_and_eq_zero (shl_mod_and_shr_eq_zero
        (spec_glyph_row_lt hfont string _ _) (by omega) (by omega))

end Max7219

namespace Max7219

theorem testFont_lt (c r : Nat) : testFont c r < 256 := by
  show (if c = 0 then 0 else (c + r) % 256) < 256
  split
  · norm_num
  · exact Nat.mod_lt _ (by norm_num)

theorem testFont_blank (r : Nat) : testFont 0 r = 0 := rfl

/-- Claim C5 witness. -/
theorem get_byte_at_eq_spec_composed_byte_witness :
    (1 : Nat) ≤ [65, 66].length ∧
    get_byte_at testFont [65, 66] 1 2 (-3) =
      spec_composed_byte testFont [65, 66] 1 2 (-3) :=
  ⟨by norm_num,
   get_byte_at_eq_spec_composed_byte testFont testFont_lt [65, 66] 1 2 (-3)
     (by norm_num) (by norm_num) (by norm_num) (by norm_num)⟩

/-- Claim C4 counterexample: the code computes `char_base` with Rust's
truncating division (`Int.tdiv`), which differs from floor division on
negative offsets: at `x_pos = -9` the code yields `char_base = -1` while
floor division yields `-2`. -/
theorem start_string_index_not_floor_div :
    shift_by_bits (-9) = -1 ∧ start_string_index (-9) = -1 ∧
    Int.fdiv (-9) 8 = -2 ∧ start_string_index (-9) ≠ Int.fdiv (-9) 8 := by
  decide

/-- Claim C4 (amended): `write_str_at_pos` decomposes `x_pos` as
`x_pos = 8 * char_base + shift` with `shift = x_pos mod 8` a signed remainder
in `[-7, 7]` carrying the sign of `x_pos`, and `char_base = x_pos div 8`
computed by truncating (round-toward-zero) division — not floor division —
consistent with that remainder convention. -/
theorem shift_decomposition (x : Int) :
    8 * start_string_index x + shift_by_bits x = x ∧
    -7 ≤ shift_by_bits x ∧ shift_by_bits x ≤ 7 ∧
    (0 ≤ x → 0 ≤ shift_by_bits x) ∧ (x ≤ 0 → shift_by_bits x ≤ 0) ∧
    start_string_index x = Int.tdiv x 8 ∧ shift_by_bits x = Int.tmod x 8 := by
  rw [shift_by_bits, start_string_index]
  rcases x with n | n
  · rw [show (Int.ofNat n).tmod 8 = Int.ofNat (n % 8) from rfl,
      show (Int.ofNat n).tdiv 8 = Int.ofNat (n / 8) from rfl]
    simp only [Int.ofNat_eq_natCast]
    refine ⟨?_, ?_, ?_, ?_, ?_, trivial, trivial⟩ <;> omega
  · rw [show (Int.negSucc n).tmod 8 = -Int.ofNat ((n + 1) % 8) from rfl,
      show (Int.negSucc n).tdiv 8 = -Int.ofNat ((n + 1) / 8) from rfl]
    simp only [Int.ofNat_eq_natCast, Int.negSucc_eq]
    refine ⟨?_, ?_, ?_, ?_, ?_, trivial, trivial⟩ <;> omega

/-- Claim C4 (amended) witness. -/
theorem shift_decomposition_witness :
    8 * start_string_index (-13) + shift_by_bits (-13) = -13 ∧
    shift_by_bits (-13) ≤ 0 :=
  ⟨(shift_decomposition (-13)).1,
   (shift_decomposition (-13)).2.2.2.2.1 (by norm_num)⟩

end Max7219

namespace Max7219

theorem countBytes_append (a b : List Ev) :
    countBytes (a ++ b) = countBytes a + countBytes b := by
  rw [countBytes, countBytes, countBytes, List.countP_append]

theorem countBytes_pairList (r d n : Nat) :
    countBytes (pairList r d n) = 2 * n := by
  induction n with
  | zero => rfl
  | succ n ih =>
    rw [pairList, show Ev.byte r :: Ev.byte d :: pairList r d n =
      [Ev.byte r, Ev.byte d] ++ pairList r d n from rfl, countBytes_append, ih]
    have h2 : countBytes [Ev.byte r, Ev.byte d] = 2 := rfl
    rw [h2]
    omega

theorem countBytes_pairFlatMap (r : Nat) (payload : List Nat) :
    countBytes (payload.flatMap (fun d => [Ev.byte r, Ev.byte d])) =
      2 * payload.length := by
  induction payload with
  | nil => rfl
  | cons d rest ih =>
    rw [List.flatMap_cons, countBytes_append, ih]
    simp [countBytes]
    omega

theorem flatMap_congr {α β : Type} {l : List α} {f g : α → List β}
    (h : ∀ a ∈ l, f a = g a) : l.flatMap f = l.flatMap g := by
  induction l with
  | nil => rfl
  | cons a rest ih =>
    rw [List.flatMap_cons, List.flatMap_cons, h a (by simp),
      ih (fun x hx => h x (by simp [hx]))]

/-- Claim C2: for `1 ≤ N` and `device_index < N`, `write_device_raw`
transmits one frame of exactly `2·N` bytes: `N-1-device_index` trailing
`(Noop = 0x00, 0)` pad pairs, the `(register, data)` pair, then
`device_index` leading pad pairs — `N` pairs in total also at the
boundaries `device_index = 0` and `device_index = N-1`. -/
theorem write_device_raw_frame (nd di reg dat : Nat) (h1 : 1 ≤ nd)
    (h2 : di < nd) :
    outcomeErr (write_device_raw okEnv nd di reg dat st0) = none ∧
    outcomeTrace (write_device_raw okEnv nd di reg dat st0) =
      [Ev.lo] ++ pairList 0 0 (nd - 1 - di) ++ [Ev.byte reg, Ev.byte dat]
        ++ pairList 0 0 di ++ [Ev.hi] ∧
    (nd - 1 - di) + 1 + di = nd ∧
    countBytes (outcomeTrace (write_device_raw okEnv nd di reg dat st0)) =
      2 * nd := by
  have ht : outcomeTrace (write_device_raw okEnv nd di reg dat st0) =
      [Ev.lo] ++ pairList 0 0 (nd - 1 - di) ++ [Ev.byte reg, Ev.byte dat]
        ++ pairList 0 0 di ++ [Ev.hi] := by
    rw [write_device_raw_okEnv]
    simp [outcomeTrace, st0]
  refine ⟨by rw [write_device_raw_okEnv]; rfl, ht, by omega, ?_⟩
  rw [ht, show [Ev.byte reg, Ev.byte dat] = pairList reg dat 1 from rfl]
  simp only [countBytes_append, countBytes_pairList]
  have hlo : countBytes [Ev.lo] = 0 := rfl
  have hhi : countBytes [Ev.hi] = 0 := rfl
  rw [hlo, hhi]
  omega

/-- Claim C2 witness. -/
theorem write_device_raw_frame_witness :
    (1 : Nat) ≤ 3 ∧ (1 : Nat) < 3 ∧
    (outcomeErr (write_device_raw okEnv 3 1 2 9 st0) = none ∧
     outcomeTrace (write_device_raw okEnv 3 1 2 9 st0) =
       [Ev.lo] ++ pairList 0 0 (3 - 1 - 1) ++ [Ev.byte 2, Ev.byte 9]
         ++ pairList 0 0 1 ++ [Ev.hi] ∧
     (3 - 1 - 1) + 1 + 1 = 3 ∧
     countBytes (outcomeTrace (write_device_raw okEnv 3 1 2 9 st0)) = 2 * 3) :=
  ⟨by norm_num, by norm_num,
   write_device_raw_frame 3 1 2 9 (by norm_num) (by norm_num)⟩

theorem write_line_raw_invalid_line (env : Env) (nd li : Nat)
    (payload : List Nat) (s : St) (h : 8 ≤ li) :
    write_line_raw env nd li payload s = .error (.InvalidLineIndex, s) := by
  rw [write_line_raw, if_pos h]

theorem write_line_raw_invalid_len (env : Env) (nd li : Nat)
    (payload : List Nat) (s : St) (h1 : li < 8) (h2 : payload.length ≠ nd) :
    write_line_raw env nd li payload s = .error (.InvalidPayloadLength, s) := by
  rw [write_line_raw, if_neg (by omega), if_pos h2]

/-- Claim C3: `write_line_raw` rejects `line_index ≥ 8` with
`InvalidLineIndex`, and (for `line_index ∈ [0,7]`) a payload whose length is
not `num_devices` with `InvalidPayloadLength`; in both cases the state is
returned untouched — no byte transmitted, the select signal never driven. -/
theorem write_line_raw_validation (env : Env) (nd li : Nat)
    (payload : List Nat) :
    (8 ≤ li →
      write_line_raw env nd li payload st0 = .error (.InvalidLineIndex, st0)) ∧
    (li < 8 → payload.length ≠ nd →
      write_line_raw env nd li payload st0 =
        .error (.InvalidPayloadLength, st0)) :=
  ⟨fun h => write_line_raw_invalid_line env nd li payload st0 h,
   fun h1 h2 => write_line_raw_invalid_len env nd li payload st0 h1 h2⟩

/-- Claim C3 witness. -/
theorem write_line_raw_validation_witness :
    (write_line_raw okEnv 1 9 [] st0 = .error (.InvalidLineIndex, st0)) ∧
    (write_line_raw okEnv 1 3 [1, 2] st0 =
      .error (.InvalidPayloadLength, st0)) :=
  ⟨(write_line_raw_validation okEnv 1 9 []).1 (by norm_num),
   (write_line_raw_validation okEnv 1 3 [1, 2]).2 (by norm_num) (by norm_num)⟩

/-- Claim C6: for `1 ≤ N`, `line_index ∈ [0,7]` and a payload of length `N`,
`write_line_raw` succeeds and transmits exactly `N` pairs
`(line_index + 1, payload[i])` in payload order in a single frame, select
asserted before the first pair and deasserted after the last. -/
theorem write_line_raw_frame (nd li : Nat) (payload : List Nat)
    (h1 : 1 ≤ nd) (h2 : li < 8) (h3 : payload.length = nd) :
    outcomeErr (write_line_raw okEnv nd li payload st0) = none ∧
    outcomeTrace (write_line_raw okEnv nd li payload st0) =
      [Ev.lo] ++ payload.flatMap (fun d => [Ev.byte (li + 1), Ev.byte d])
        ++ [Ev.hi] ∧
    countBytes (outcomeTrace (write_line_raw okEnv nd li payload st0)) =
      2 * nd := by
  have ht : outcomeTrace (write_line_raw okEnv nd li payload st0) =
      [Ev.lo] ++ payload.flatMap (fun d => [Ev.byte (li + 1), Ev.byte d])
        ++ [Ev.hi] := by
    rw [write_line_raw_okEnv _ _ _ _ h2 h3]
    simp [outcomeTrace, st0]
  refine ⟨by rw [write_line_raw_okEnv _ _ _ _ h2 h3]; rfl, ht, ?_⟩
  rw [ht]
  simp only [countBytes_append, countBytes_pairFlatMap]
  have hlo : countBytes [Ev.lo] = 0 := rfl
  have hhi : countBytes [Ev.hi] = 0 := rfl
  rw [hlo, hhi, h3]
  omega

/-- Claim C6 witness: the spec's concrete scenario
`N = 2, write_line(3, [0xAA, 0x55])`. -/
theorem write_line_raw_frame_witness :
    (1 : Nat) ≤ 2 ∧ (3 : Nat) < 8 ∧ ([170, 85] : List Nat).length = 2 ∧
    (outcomeErr (write_line_raw okEnv 2 3 [170, 85] st0) = none ∧
     outcomeTrace (write_line_raw okEnv 2 3 [170, 85] st0) =
       [Ev.lo] ++ [170, 85].flatMap (fun d => [Ev.byte 4, Ev.byte d])
         ++ [Ev.hi] ∧
     countBytes (outcomeTrace (write_line_raw okEnv 2 3 [170, 85] st0)) =
       2 * 2) :=
  ⟨by norm_num, by norm_num, by norm_num,
   write_line_raw_frame 2 3 [170, 85] (by norm_num) (by norm_num)
     (by norm_num)⟩

/-- Claim C10: `write_device_raw` performs no validation of `device_index`:
it can only fail with transport (`Spi`) or pin (`Pin`) errors, never
`InvalidLineIndex`/`InvalidPayloadLength`; and for `device_index ≥ N ≥ 1` a
fault-free call completes and transmits `device_index + 1` pairs (empty
trailing pad loop, the target pair, `device_index` leading pads), which
exceeds the `N` pairs of a normal frame. -/
theorem write_device_raw_no_validation (nd di reg dat : Nat) (h1 : 1 ≤ nd)
    (h2 : nd ≤ di) :
    (∀ env s e st, write_device_raw env nd di reg dat s = .error (e, st) →
      e = Err.Spi ∨ e = Err.Pin) ∧
    outcomeErr (write_device_raw okEnv nd di reg dat st0) = none ∧
    outcomeTrace (write_device_raw okEnv nd di reg dat st0) =
      [Ev.lo] ++ [Ev.byte reg, Ev.byte dat] ++ pairList 0 0 di ++ [Ev.hi] ∧
    countBytes (outcomeTrace (write_device_raw okEnv nd di reg dat st0)) =
      2 * (di + 1) ∧
    nd < di + 1 := by
  have h0 : nd - 1 - di = 0 := by omega
  have ht : outcomeTrace (write_device_raw okEnv nd di reg dat st0) =
      [Ev.lo] ++ [Ev.byte reg, Ev.byte dat] ++ pairList 0 0 di ++ [Ev.hi] := by
    rw [write_device_raw_okEnv, h0]
    simp [outcomeTrace, st0, pairList]
  refine ⟨fun env s e st h =>
      transportOnly_write_device_raw env nd di reg dat s e st h,
    by rw [write_device_raw_okEnv]; rfl, ht, ?_, by omega⟩
  rw [ht, show [Ev.byte reg, Ev.byte dat] = pairList reg dat 1 from rfl]
  simp only [countBytes_append, countBytes_pairList]
  have hlo : countBytes [Ev.lo] = 0 := rfl
  have hhi : countBytes [Ev.hi] = 0 := rfl
  rw [hlo, hhi]
  omega

/-- Claim C10 witness. -/
theorem write_device_raw_no_validation_witness :
    (1 : Nat) ≤ 2 ∧ (2 : Nat) ≤ 5 ∧
    ((∀ env s e st, write_device_raw env 2 5 7 3 s = .error (e, st) →
        e = Err.Spi ∨ e = Err.Pin) ∧
     outcomeErr (write_device_raw okEnv 2 5 7 3 st0) = none ∧
     outcomeTrace (write_device_raw okEnv 2 5 7 3 st0) =
       [Ev.lo] ++ [Ev.byte 7, Ev.byte 3] ++ pairList 0 0 5 ++ [Ev.hi] ∧
     countBytes (outcomeTrace (write_device_raw okEnv 2 5 7 3 st0)) =
       2 * (5 + 1) ∧
     2 < 5 + 1) :=
  ⟨by norm_num, by norm_num,
   write_device_raw_no_validation 2 5 7 3 (by norm_num) (by norm_num)⟩

end Max7219

namespace Max7219

theorem get_byte_at_zero (font : FontTable) (string : List Nat) (si r : Nat) :
    get_byte_at font string si r 0 =
      (if is_in_range (string.length : Int) (si : Int) then
        font (string.getD si 0) else font 0) r := by
  simp only [get_byte_at, Int.toNat_natCast]
  norm_num

theorem codeByte_zero (font : FontTable) (hblank : ∀ r, font 0 r = 0)
    (nd : Nat) (string : List Nat) (r d : Nat) (hd : d < nd) :
    codeByte font nd string 0 0 r d =
      if nd - 1 - d < string.length then
        font (string.getD (nd - 1 - d) 0) r else 0 := by
  simp only [codeByte]
  have e : ((nd : Int) - (d : Int) - 1 - 0).toNat = nd - 1 - d := by omega
  by_cases hlen : nd - 1 - d < string.length
  · rw [if_pos (by constructor <;> omega), e, get_byte_at_zero,
      if_pos (by simp only [is_in_range, Bool.and_eq_true, decide_eq_true_eq]; omega),
      if_pos hlen]
  · by_cases heq : nd - 1 - d = string.length
    · rw [if_pos (by constructor <;> omega), e, get_byte_at_zero,
        if_neg (by simp only [is_in_range, Bool.and_eq_true, decide_eq_true_eq]; omega),
        if_neg hlen]
      exact hblank r
    · rw [if_neg (by rw [not_and_or]; right; omega), if_neg hlen]

/-- Claim C7: with `x_pos = 0` (so `shift = 0`, no bit blending),
`write_str_at_pos` emits 8 frames; in frame `r` chip `d` receives
`(register = r + 1, data)` with `data` the unmodified glyph row
`font (string[N-1-d]) r` when `N-1-d` is a valid character index and `0`
otherwise (the sentinel glyph being blank by hypothesis). -/
theorem write_str_at_pos_zero_renders_glyphs (font : FontTable)
    (hblank : ∀ r, font 0 r = 0) (nd : Nat) (h1 : 1 ≤ nd)
    (string : List Nat) :
    outcomeErr (write_str_at_pos font okEnv nd string 0 st0) = none ∧
    outcomeTrace (write_str_at_pos font okEnv nd string 0 st0) =
      (List.range 8).flatMap (fun r =>
        [Ev.lo] ++ (List.range nd).flatMap (fun d =>
          [Ev.byte (r + 1), Ev.byte (if nd - 1 - d < string.length then
            font (string.getD (nd - 1 - d) 0) r else 0)]) ++ [Ev.hi]) := by
  have e1 : start_string_index 0 = 0 := rfl
  have e2 : shift_by_bits 0 = 0 := rfl
  refine ⟨by rw [write_str_at_pos_okEnv]; rfl, ?_⟩
  rw [write_str_at_pos_okEnv]
  show ([] : List Ev) ++ _ = _
  rw [List.nil_append, e1, e2]
  apply flatMap_congr
  intro r _
  have hinner : (List.range nd).flatMap (fun c =>
      [Ev.byte (r + 1), Ev.byte (codeByte font nd string 0 0 r c)]) =
      (List.range nd).flatMap (fun d =>
        [Ev.byte (r + 1), Ev.byte (if nd - 1 - d < string.length then
          font (string.getD (nd - 1 - d) 0) r else 0)]) := by
    apply flatMap_congr
    intro d hd
    rw [codeByte_zero font hblank nd string r d (List.mem_range.mp hd)]
  rw [hinner]

/-- Claim C7 witness: the spec's concrete scenario `N = 1`, string `"A"`
(`[65]`), `x_pos = 0`: 8 frames, each one pair `(r + 1, glyph(65)[r])`. -/
theorem write_str_at_pos_zero_renders_glyphs_witness :
    (∀ r, testFont 0 r = 0) ∧ (1 : Nat) ≤ 1 ∧
    (outcomeErr (write_str_at_pos testFont okEnv 1 [65] 0 st0) = none ∧
     outcomeTrace (write_str_at_pos testFont okEnv 1 [65] 0 st0) =
       (List.range 8).flatMap (fun r =>
         [Ev.lo] ++ (List.range 1).flatMap (fun d =>
           [Ev.byte (r + 1), Ev.byte (if 1 - 1 - d < ([65] : List Nat).length
             then testFont (([65] : List Nat).getD (1 - 1 - d) 0) r
             else 0)]) ++ [Ev.hi])) :=
  ⟨testFont_blank, by norm_num,
   write_str_at_pos_zero_renders_glyphs testFont testFont_blank 1
     (by norm_num) [65]⟩

end Max7219

namespace Max7219

theorem outcomeTrace_ok (s : St) : outcomeTrace (.ok s) = s.trace := rfl

theorem selectLowAfter_frame (P : List Ev) :
    selectLowAfter ([Ev.lo] ++ P ++ [Ev.hi]) = false := by
  rw [show [Ev.lo] ++ P ++ [Ev.hi] = ([Ev.lo] ++ P) ++ [Ev.hi] by simp]
  exact selectLowAfter_snoc_hi _

/-- Claim C1 counterexample: the claim promises the select signal is
deasserted on every exit path, including an SPI failure mid-frame; but the
code's `?` early returns skip `cs.set_high()`.  Concretely, with one device
and an environment whose first SPI transfer fails, `write_raw_all` asserts
the select signal, returns the `Spi` error, and leaves the select signal
asserted. -/
theorem write_raw_all_spi_failure_leaves_select_asserted :
    outcomeErr (write_raw_all spiFailFirst 1 5 7 st0) = some Err.Spi ∧
    outcomeTrace (write_raw_all spiFailFirst 1 5 7 st0) = [Ev.lo] ∧
    selectLowAfter (outcomeTrace (write_raw_all spiFailFirst 1 5 7 st0)) =
      true := by
  decide

/-- Claim C1 (amended): on every exit path that does not involve a
transport/pin failure — every successful frame of every operation, and the
validation-error exits of `write_line_raw`, which never touch the select
signal — the select signal asserted at the start of a frame is deasserted
before the operation returns.  (On an SPI or pin failure mid-frame the
operation instead returns immediately with the select signal still
asserted, as the counterexample shows.) -/
theorem select_released_on_all_nonfailure_exits
    (nd dat reg li di : Nat) (command : Command) (payload : List Nat)
    (font : FontTable) (string : List Nat) (x_pos : Int) :
    selectLowAfter (outcomeTrace (write_command_all okEnv nd command dat st0))
      = false ∧
    selectLowAfter (outcomeTrace (write_raw_all okEnv nd reg dat st0))
      = false ∧
    selectLowAfter (outcomeTrace (clear_all okEnv nd st0)) = false ∧
    selectLowAfter (outcomeTrace (write_line_raw okEnv nd li payload st0))
      = false ∧
    selectLowAfter (outcomeTrace (write_device_raw okEnv nd di reg dat st0))
      = false ∧
    selectLowAfter (outcomeTrace (write_str_at_pos font okEnv nd string
      x_pos st0)) = false := by
  have hnil : st0.trace = [] := rfl
  refine ⟨?_, ?_, ?_, ?_, ?_, ?_⟩
  · rw [write_command_all, write_raw_all_okEnv, outcomeTrace_ok]
    rw [hnil, List.nil_append]
    exact selectLowAfter_frame _
  · rw [write_raw_all_okEnv, outcomeTrace_ok, hnil, List.nil_append]
    exact selectLowAfter_frame _
  · rw [clear_all, clearLoop_okEnv, outcomeTrace_ok, hnil, List.nil_append]
    exact foldl_selStep_flatMap _ _
      (fun a _ => ⟨[Ev.lo] ++ pairList a 0 nd, by simp⟩) false (by decide)
  · by_cases hv : 8 ≤ li
    · rw [write_line_raw_invalid_line okEnv nd li payload st0 hv]
      rfl
    · by_cases hlen : payload.length = nd
      · rw [write_line_raw_okEnv nd li payload st0 (by omega) hlen,
          outcomeTrace_ok, hnil, List.nil_append]
        exact selectLowAfter_frame _
      · rw [write_line_raw_invalid_len okEnv nd li payload st0 (by omega) hlen]
        rfl
  · rw [write_device_raw_okEnv, outcomeTrace_ok, hnil, List.nil_append]
    rw [show [Ev.lo] ++ pairList 0 0 (nd - 1 - di) ++ [Ev.byte reg, Ev.byte dat]
      ++ pairList 0 0 di ++ [Ev.hi] = [Ev.lo] ++ (pairList 0 0 (nd - 1 - di)
      ++ [Ev.byte reg, Ev.byte dat] ++ pairList 0 0 di) ++ [Ev.hi] by simp]
    exact selectLowAfter_frame _
  · rw [write_str_at_pos_okEnv, outcomeTrace_ok, hnil, List.nil_append]
    refine foldl_selStep_flatMap _ _ (fun a _ => ?_) false (by decide)
    exact ⟨[Ev.lo] ++ (List.range nd).flatMap (fun c =>
      [Ev.byte (a + 1), Ev.byte (codeByte font nd string
        (start_string_index x_pos) (shift_by_bits x_pos) a c)]), by simp⟩

end Max7219

namespace Max7219

theorem getD_set_lt {l : List Nat} {i k : Nat} {a : Nat} (hi : i < l.length) :
    (l.set i a).getD k 0 = if i = k then a else l.getD k 0 := by
  rw [List.getD_eq_getElem?_getD, List.getD_eq_getElem?_getD,
    List.getElem?_set]
  by_cases h : i = k
  · rw [if_pos h, if_pos h, if_pos hi]
    rfl
  · rw [if_neg h, if_neg h]

theorem or_shift_idem (a m : Nat) : (a ||| m) ||| m = a ||| m := by
  rw [Nat.or_assoc, Nat.or_self]

theorem rotStep_spec (i line : Nat) (cols : List Nat)
    (hcols : ∀ j ∈ cols, j < 8) : ∀ rotated : List Nat, rotated.length = 8 →
    (rotStep i line cols rotated).length = 8 ∧
    ∀ k, k < 8 →
      (rotStep i line cols rotated).getD k 0 =
        if (7 - k) ∈ cols ∧ is_bit_set line (7 - k) = true then
          rotated.getD k 0 ||| (1 <<< i)
        else rotated.getD k 0 := by
  induction cols with
  | nil =>
    intro rotated hlen
    refine ⟨hlen, fun k hk => ?_⟩
    simp [rotStep]
  | cons j rest ih =>
    intro rotated hlen
    have hj : j < 8 := hcols j (List.mem_cons_self j rest)
    have hrest : ∀ x ∈ rest, x < 8 := fun x hx =>
      hcols x (List.mem_cons_of_mem j hx)
    have hstep : rotStep i line (j :: rest) rotated =
        rotStep i line rest (if is_bit_set line j then
          rotated.set (7 - j) (rotated.getD (7 - j) 0 ||| (1 <<< i))
          else rotated) := rfl
    by_cases hb : is_bit_set line j
    · have hlen1 : (rotated.set (7 - j)
          (rotated.getD (7 - j) 0 ||| (1 <<< i))).length = 8 := by
        simp [hlen]
      obtain ⟨ihl, ihg⟩ := ih hrest _ hlen1
      refine ⟨by rw [hstep, if_pos hb]; exact ihl, ?_⟩
      intro k hk
      rw [hstep, if_pos hb, ihg k hk]
      have hg : (rotated.set (7 - j)
          (rotated.getD (7 - j) 0 ||| (1 <<< i))).getD k 0 =
          if 7 - j = k then rotated.getD (7 - j) 0 ||| (1 <<< i)
          else rotated.getD k 0 := getD_set_lt (by omega)
      by_cases hjk : 7 - j = k
      · have h7 : 7 - k = j := by omega
        rw [hg, if_pos hjk, hjk, h7]
        by_cases hmem : j ∈ rest
        · rw [if_pos ⟨hmem, hb⟩, if_pos ⟨List.mem_cons_self j rest, hb⟩,
            or_shift_idem]
        · rw [if_neg (fun hc => hmem hc.1),
            if_pos ⟨List.mem_cons_self j rest, hb⟩]
      · have h7 : 7 - k ≠ j := by omega
        rw [hg, if_neg hjk]
        by_cases hmem : (7 - k) ∈ rest ∧ is_bit_set line (7 - k) = true
        · rw [if_pos hmem, if_pos ⟨List.mem_cons_of_mem j hmem.1, hmem.2⟩]
        · have hmem' : ¬ ((7 - k) ∈ j :: rest ∧
              is_bit_set line (7 - k) = true) := by
            intro hc
            rcases List.mem_cons.mp hc.1 with hx | hx
            · exact h7 hx
            · exact hmem ⟨hx, hc.2⟩
          rw [if_neg hmem, if_neg hmem']
    · obtain ⟨ihl, ihg⟩ := ih hrest rotated hlen
      refine ⟨by rw [hstep, if_neg hb]; exact ihl, ?_⟩
      intro k hk
      rw [hstep, if_neg hb, ihg k hk]
      by_cases hjk : 7 - k = j
      · have hbk : ¬ is_bit_set line (7 - k) = true := by rw [hjk]; exact hb
        rw [if_neg (fun hc => hbk hc.2), if_neg (fun hc => hbk hc.2)]
      · by_cases hmem : (7 - k) ∈ rest ∧ is_bit_set line (7 - k) = true
        · rw [if_pos hmem, if_pos ⟨List.mem_cons_of_mem j hmem.1, hmem.2⟩]
        · have hmem' : ¬ ((7 - k) ∈ j :: rest ∧
              is_bit_set line (7 - k) = true) := by
            intro hc
            rcases List.mem_cons.mp hc.1 with hx | hx
            · exact hjk hx
            · exact hmem ⟨hx, hc.2⟩
          rw [if_neg hmem, if_neg hmem']

end Max7219

namespace Max7219

theorem rotStep_range8 (i line : Nat) (rotated : List Nat)
    (hlen : rotated.length = 8) :
    (rotStep i line (List.range 8) rotated).length = 8 ∧
    ∀ k, k < 8 →
      (rotStep i line (List.range 8) rotated).getD k 0 =
        if is_bit_set line (7 - k) = true then
          rotated.getD k 0 ||| (1 <<< i)
        else rotated.getD k 0 := by
  obtain ⟨hl, hg⟩ := rotStep_spec i line (List.range 8)
    (fun j hj => List.mem_range.mp hj) rotated hlen
  refine ⟨hl, fun k hk => ?_⟩
  rw [hg k hk]
  have hmem : (7 - k) ∈ List.range 8 := List.mem_range.mpr (by omega)
  by_cases hb : is_bit_set line (7 - k) = true
  · rw [if_pos ⟨hmem, hb⟩, if_pos hb]
  · rw [if_neg (fun hc => hb hc.2), if_neg hb]

theorem testBit_or_shift (x i b : Nat) :
    (x ||| (1 <<< i)).testBit b = (x.testBit b || decide (i = b)) := by
  rw [Nat.testBit_or, Nat.one_shiftLeft, Nat.testBit_two_pow]

theorem rotFold_spec (buf : List Nat) : ∀ (k : Nat) (rot : List Nat),
    rot.length = 8 →
    ((buf.enumFrom k).foldl
        (fun rot p => rotStep p.1 p.2 (List.range 8) rot) rot).length = 8 ∧
    ∀ rIdx, rIdx < 8 → ∀ b,
      (((buf.enumFrom k).foldl
          (fun rot p => rotStep p.1 p.2 (List.range 8) rot) rot).getD rIdx 0).testBit b =
        ((rot.getD rIdx 0).testBit b ||
          (decide (k ≤ b) && decide (b < k + buf.length) &&
            is_bit_set (buf.getD (b - k) 0) (7 - rIdx))) := by
  induction buf with
  | nil =>
    intro k rot hlen
    refine ⟨hlen, fun rIdx hr b => ?_⟩
    show (rot.getD rIdx 0).testBit b = _
    by_cases h : k ≤ b
    · have h2 : ¬ (b < k + ([] : List Nat).length) := by
        simp only [List.length_nil]
        omega
      simp [h, h2]
    · simp [h]
  | cons line rest ih =>
    intro k rot hlen
    have hstep : (List.enumFrom k (line :: rest)).foldl
        (fun rot p => rotStep p.1 p.2 (List.range 8) rot) rot =
        (List.enumFrom (k + 1) rest).foldl
          (fun rot p => rotStep p.1 p.2 (List.range 8) rot)
          (rotStep k line (List.range 8) rot) := rfl
    obtain ⟨hl1, hg1⟩ := rotStep_range8 k line rot hlen
    obtain ⟨ihl, ihg⟩ := ih (k + 1) (rotStep k line (List.range 8) rot) hl1
    refine ⟨by rw [hstep]; exact ihl, fun rIdx hr b => ?_⟩
    rw [hstep, ihg rIdx hr b, hg1 rIdx hr]
    by_cases hb : is_bit_set line (7 - rIdx) = true
    · rw [if_pos hb, testBit_or_shift]
      by_cases hbk : b = k
      · subst hbk
        have f1 : ¬ (b + 1 ≤ b) := by omega
        have f2 : b < b + (line :: rest).length := by
          simp only [List.length_cons]
          omega
        have f3 : b - b = 0 := by omega
        simp [f1, f2, f3, hb]
      · by_cases hkb : k + 1 ≤ b
        · have f1 : k ≤ b := by omega
          have f3 : ¬ (k = b) := by omega
          have e : (line :: rest).getD (b - k) 0 = rest.getD (b - (k + 1)) 0 := by
            rw [show b - k = (b - (k + 1)) + 1 by omega, List.getD_cons_succ]
          have f2 : decide (b < k + 1 + rest.length) =
              decide (b < k + (line :: rest).length) := by
            rw [decide_eq_decide]
            simp only [List.length_cons]
            omega
          rw [e, f2]
          simp [f3, f1, hkb]
        · have f1 : ¬ (k ≤ b) := by omega
          have f3 : ¬ (k = b) := by omega
          simp [f1, f3, hkb]
    · rw [if_neg hb]
      by_cases hbk : b = k
      · subst hbk
        have f1 : ¬ (b + 1 ≤ b) := by omega
        have f2 : b - b = 0 := by omega
        have hbf : is_bit_set line (7 - rIdx) = false :=
          Bool.not_eq_true _ ▸ eq_false_of_ne_true hb
        simp [f1, f2, hbf]
      · by_cases hkb : k + 1 ≤ b
        · have f1 : k ≤ b := by omega
          have e : (line :: rest).getD (b - k) 0 = rest.getD (b - (k + 1)) 0 := by
            rw [show b - k = (b - (k + 1)) + 1 by omega, List.getD_cons_succ]
          have f2 : decide (b < k + 1 + rest.length) =
              decide (b < k + (line :: rest).length) := by
            rw [decide_eq_decide]
            simp only [List.length_cons]
            omega
          rw [e, f2]
          simp [f1, hkb]
        · have f1 : ¬ (k ≤ b) := by omega
          simp [f1, hkb]

end Max7219

namespace Max7219

theorem is_bit_set_eq (line j : Nat) :
    is_bit_set line j = (decide (j < 8) && line.testBit j) := by
  rw [is_bit_set]
  by_cases h : j < 8
  · rw [if_pos h, decide_eq_true h, Bool.true_and, Nat.one_shiftLeft,
      Nat.and_two_pow]
    cases hb : line.testBit j
    · simp
    · simp [Nat.pos_iff_ne_zero.mp (Nat.two_pow_pos j)]
  · rw [if_neg h, decide_eq_false h, Bool.false_and]

theorem rotate_90_clockwise_spec (buffer : List Nat) :
    (rotate_90_clockwise buffer).length = 8 ∧
    ∀ r, r < 8 → ∀ b,
      ((rotate_90_clockwise buffer).getD r 0).testBit b =
        (decide (b < buffer.length) && (buffer.getD b 0).testBit (7 - r)) := by
  have hinit : (List.replicate 8 (0 : Nat)).length = 8 := by simp
  obtain ⟨hl, hg⟩ := rotFold_spec buffer 0 (List.replicate 8 0) hinit
  have hrw : rotate_90_clockwise buffer =
      (buffer.enumFrom 0).foldl
        (fun rot p => rotStep p.1 p.2 (List.range 8) rot)
        (List.replicate 8 0) := rfl
  refine ⟨by rw [hrw]; exact hl, fun r hr b => ?_⟩
  rw [hrw, hg r hr b]
  have hzero : (List.replicate 8 (0 : Nat)).getD r 0 = 0 := by
    rw [List.getD_eq_getElem?_getD, List.getElem?_replicate_of_lt (by omega)]
    rfl
  rw [hzero, Nat.zero_testBit, Bool.false_or, is_bit_set_eq]
  have f0 : decide (0 ≤ b) = true := by simp
  have f1 : decide (7 - r < 8) = true := by simp; omega
  rw [f0, f1, Nat.sub_zero, Nat.zero_add, Bool.true_and, Bool.true_and]

end Max7219

namespace Max7219

/-- Claim C8: `rotate_90_clockwise` is a pure total function on 8-byte
matrices: bit `(i, j)` of the input appears as bit `i` of output row `7 - j`,
no other output bits are ever set, the all-zero matrix maps to itself, and
the matrix with only bit `(0,0)` set maps to the matrix with only bit
`(7, 0)` set. -/
theorem rotate_90_clockwise_bit_spec (buffer : List Nat)
    (hlen : buffer.length = 8) :
    ((rotate_90_clockwise buffer).length = 8 ∧
     ∀ i j, i < 8 → j < 8 →
       ((rotate_90_clockwise buffer).getD (7 - j) 0).testBit i =
         (buffer.getD i 0).testBit j) ∧
    (∀ r b, r < 8 → 8 ≤ b →
      ((rotate_90_clockwise buffer).getD r 0).testBit b = false) ∧
    rotate_90_clockwise [0, 0, 0, 0, 0, 0, 0, 0] =
      [0, 0, 0, 0, 0, 0, 0, 0] ∧
    rotate_90_clockwise [1, 0, 0, 0, 0, 0, 0, 0] =
      [0, 0, 0, 0, 0, 0, 0, 1] := by
  obtain ⟨hl, hg⟩ := rotate_90_clockwise_spec buffer
  refine ⟨⟨hl, fun i j hi hj => ?_⟩, fun r b hr hb => ?_, by decide, by decide⟩
  · rw [hg (7 - j) (by omega) i, hlen, decide_eq_true hi, Bool.true_and,
      show 7 - (7 - j) = j by omega]
  · rw [hg r hr b, hlen, decide_eq_false (by omega), Bool.false_and]

/-- Claim C8 witness. -/
theorem rotate_90_clockwise_bit_spec_witness :
    ([1, 2, 3, 4, 5, 6, 7, 128] : List Nat).length = 8 ∧
    (((rotate_90_clockwise [1, 2, 3, 4, 5, 6, 7, 128]).length = 8 ∧
      ∀ i j, i < 8 → j < 8 →
        ((rotate_90_clockwise [1, 2, 3, 4, 5, 6, 7, 128]).getD (7 - j) 0).testBit i =
          (([1, 2, 3, 4, 5, 6, 7, 128] : List Nat).getD i 0).testBit j) ∧
     (∀ r b, r < 8 → 8 ≤ b →
       ((rotate_90_clockwise [1, 2, 3, 4, 5, 6, 7, 128]).getD r 0).testBit b
         = false) ∧
     rotate_90_clockwise [0, 0, 0, 0, 0, 0, 0, 0] =
       [0, 0, 0, 0, 0, 0, 0, 0] ∧
     rotate_90_clockwise [1, 0, 0, 0, 0, 0, 0, 0] =
       [0, 0, 0, 0, 0, 0, 0, 1]) :=
  ⟨by norm_num, rotate_90_clockwise_bit_spec [1, 2, 3, 4, 5, 6, 7, 128]
    (by norm_num)⟩

end Max7219

namespace Max7219

theorem list_ext8 {l1 l2 : List Nat} (h1 : l1.length = 8) (h2 : l2.length = 8)
    (h : ∀ r, r < 8 → l1.getD r 0 = l2.getD r 0) : l1 = l2 := by
  apply List.ext_getElem (by omega)
  intro n hn1 hn2
  have hx := h n (by omega)
  rw [List.getD_eq_getElem?_getD, List.getD_eq_getElem?_getD,
    List.getElem?_eq_getElem hn1, List.getElem?_eq_getElem hn2] at hx
  exact hx

theorem getD_lt_256 {l : List Nat} (hb : ∀ x ∈ l, x < 256) {n : Nat}
    (hn : n < l.length) : l.getD n 0 < 256 := by
  rw [List.getD_eq_getElem?_getD, List.getElem?_eq_getElem hn]
  exact hb _ (List.getElem_mem hn)

/-- Claim C9: applying `rotate_90_clockwise` four times to any 8-byte matrix
(rows being bytes, i.e. `< 256`) returns the original matrix. -/
theorem rotate_90_clockwise_fourth_iterate (buffer : List Nat)
    (hlen : buffer.length = 8) (hbytes : ∀ x ∈ buffer, x < 256) :
    rotate_90_clockwise (rotate_90_clockwise (rotate_90_clockwise
      (rotate_90_clockwise buffer))) = buffer := by
  obtain ⟨l1, g1⟩ := rotate_90_clockwise_spec buffer
  obtain ⟨l2, g2⟩ := rotate_90_clockwise_spec (rotate_90_clockwise buffer)
  obtain ⟨l3, g3⟩ := rotate_90_clockwise_spec
    (rotate_90_clockwise (rotate_90_clockwise buffer))
  obtain ⟨l4, g4⟩ := rotate_90_clockwise_spec (rotate_90_clockwise
    (rotate_90_clockwise (rotate_90_clockwise buffer)))
  apply list_ext8 l4 hlen
  intro r hr
  apply Nat.eq_of_testBit_eq
  intro b
  rw [g4 r hr b]
  by_cases hb8 : b < 8
  · rw [l3, decide_eq_true hb8, Bool.true_and]
    rw [g3 b hb8 (7 - r), l2, decide_eq_true (by omega : (7 : Nat) - r < 8),
      Bool.true_and]
    rw [g2 (7 - r) (by omega) (7 - b), l1,
      decide_eq_true (by omega : (7 : Nat) - b < 8), Bool.true_and,
      show 7 - (7 - r) = r by omega]
    rw [g1 (7 - b) (by omega) r, hlen, decide_eq_true (by omega : r < 8),
      Bool.true_and, show 7 - (7 - b) = b by omega]
  · rw [l3, decide_eq_false hb8, Bool.false_and]
    have hlt : buffer.getD r 0 < 256 := getD_lt_256 hbytes (by omega)
    exact (Nat.testBit_lt_two_pow
      (lt_two_pow_of_lt_256 hlt (by omega))).symm

/-- Claim C9 witness. -/
theorem rotate_90_clockwise_fourth_iterate_witness :
    ([1, 2, 3, 4, 5, 6, 7, 255] : List Nat).length = 8 ∧
    rotate_90_clockwise (rotate_90_clockwise (rotate_90_clockwise
      (rotate_90_clockwise [1, 2, 3, 4, 5, 6, 7, 255]))) =
      [1, 2, 3, 4, 5, 6, 7, 255] :=
  ⟨by norm_num, rotate_90_clockwise_fourth_iterate [1, 2, 3, 4, 5, 6, 7, 255]
    (by norm_num) (by decide)⟩

end Max7219
